import Mathlib

/-!
Shallow embedding of the spectackler instrument-control suite.

Strings from the Python sources are modelled as lists of character codes
(`List Nat`); byte strings as lists of byte values.  Python exceptions in
decode paths (IndexError on short frames, failed eval of a hex literal,
KeyError on a missing dictionary key) are modelled as `none`: the claims
under study only distinguish "yields a value" from "yields no value".
Python float quantities are modelled as elements of a linear ordered
commutative ring (instantiated at `ℤ` or `ℚ`): only order comparisons and
additive arithmetic on them occur in the embedded code.
-/

namespace Spectackler

/-! ### Python string primitives -/

/-- Code points stripped by Python str.strip / str.rstrip. -/
def pyIsSpace (c : Nat) : Bool :=
  c == 32 || c == 9 || c == 10 || c == 13 || c == 11 || c == 12

/-- Python str.rstrip with no argument: drop trailing whitespace. -/
def pyRstrip (s : List Nat) : List Nat :=
  (s.reverse.dropWhile pyIsSpace).reverse

/-- Python str.strip with no argument: drop leading and trailing whitespace. -/
def pyStrip (s : List Nat) : List Nat :=
  ((s.dropWhile pyIsSpace).reverse.dropWhile pyIsSpace).reverse

/-- Python str.upper on one ASCII character code. -/
def upperChar (c : Nat) : Nat :=
  if 97 ≤ c ∧ c ≤ 122 then c - 32 else c

/-- Character code of a lowercase hexadecimal digit, as Python format uses. -/
def hexLowerChar (d : Nat) : Nat :=
  if d < 10 then 48 + d else 87 + d

/-- Base-16 digits of a number, most significant first (empty for zero).
The first argument is structural fuel; one digit is emitted per step, so
fuel n suffices for argument n. -/
def hexDigitsGo : Nat → Nat → List Nat
  | 0, _ => []
  | _ + 1, 0 => []
  | fuel + 1, n + 1 => hexDigitsGo fuel ((n + 1) / 16) ++ [(n + 1) % 16]

/-- Base-16 digits of a number, most significant first (empty for zero). -/
def hexDigits (n : Nat) : List Nat :=
  hexDigitsGo n n

/-- Python format(n, 02x): minimal lowercase hex digits of n, left-padded
with the zero character to at least two characters. -/
def format02xLower (n : Nat) : List Nat :=
  let ds := (hexDigits n).map hexLowerChar
  if ds.length < 2 then List.replicate (2 - ds.length) 48 ++ ds else ds

/-- Numeric value of one hexadecimal digit character (either case). -/
def hexVal? (c : Nat) : Option Nat :=
  if 48 ≤ c ∧ c ≤ 57 then some (c - 48)
  else if 97 ≤ c ∧ c ≤ 102 then some (c - 87)
  else if 65 ≤ c ∧ c ≤ 70 then some (c - 55)
  else none

/-- Value of a nonempty all-hex character list, as Python eval of the
string 0x followed by those characters; `none` models the exception eval
raises on an empty or non-hex literal. -/
def parseHexList? (cs : List Nat) : Option Nat :=
  if cs.isEmpty then none
  else cs.foldl (fun acc c => do
    let a ← acc
    let d ← hexVal? c
    some (16 * a + d)) (some 0)

/-- Python slice l[a:b] for nonnegative bounds. -/
def pySlice (l : List Nat) (a b : Nat) : List Nat :=
  (l.take b).drop a

/-! ### isco260D.py — DASNET codec for the ISCO 260D syringe pump -/

/-- Embeds dasnet_checksum: format(256 - sum(ord(c) for c in cmd) % 256,
02x).upper().  Note the source does not reduce 256 - tot mod 256 again,
so a command whose character sum is a multiple of 256 yields the
three-character string 100. -/
def dasnet_checksum (cmd : List Nat) : List Nat :=
  (format02xLower (256 - cmd.sum % 256)).map upperChar

/-- Embeds the command part of str2dasnet: the format string dest, R,
source, two-hex-digit message length, message — all uppercased. -/
def dasnetCmd (msg source dest : List Nat) : List Nat :=
  (dest ++ [82] ++ source ++ format02xLower msg.length ++ msg).map upperChar

/-- Embeds str2dasnet: command followed by its checksum and a carriage
return. -/
def str2dasnet (msg source dest : List Nat) : List Nat :=
  dasnetCmd msg source dest ++ dasnet_checksum (dasnetCmd msg source dest) ++ [13]

/-- Embeds dasnet2str.  The source strips trailing whitespace, reads
frame[0] and frame[1] (IndexError on shorter frames is modelled as
`none`), parses frame[2:4] as a hex length via eval (failure: `none`),
takes frame[4:-2] as the message and frame[-2:] as the received checksum,
and yields the message only when the declared length and the recomputed
checksum over frame[:-2] both match. -/
def dasnet2str (frame : List Nat) : Option (List Nat) :=
  let f := pyRstrip frame
  if f.length < 2 then none
  else match parseHexList? (pySlice f 2 4) with
    | none => none
    | some len_msg =>
      let msg := (f.take (f.length - 2)).drop 4
      let cks := f.drop (f.length - 2)
      if len_msg = msg.length ∧ cks = dasnet_checksum (f.take (f.length - 2))
      then some msg else none

/-! ### rf5301.py — Shimadzu RF-5301 handshake codec -/

/-- Embeds the dict_stopgap lookup table of shim_checksum: frames (STX,
message bytes, 0x83) paired with their observed checksum bytes. -/
def dict_stopgap : List (List Nat × Nat) :=
  [ ([2, 87, 205, 131], 0x19),
    ([2, 35, 131], 0x20),
    ([2, 69, 131], 0x46),
    ([2, 214, 131], 0xd5),
    ([2, 67, 82, 131], 0x92),
    ([2, 67, 131], 0x40),
    ([2, 73, 131], 0x4a),
    ([2, 206, 49, 131], 0x7c),
    ([2, 206, 50, 131], 0x7f),
    ([2, 82, 131], 0x51),
    ([2, 87, 88, 131], 0x8c),
    ([2, 87, 77, 131], 0x19),
    ([2, 87, 193, 176, 196, 52, 56, 49, 49, 182, 50, 131], 0xe9),
    ([2, 87, 193, 176, 196, 193, 67, 49, 176, 182, 56, 131], 0xec),
    ([2, 87, 193, 176, 196, 193, 67, 49, 176, 194, 56, 131], 0x98),
    ([2, 87, 193, 176, 196, 52, 56, 49, 49, 179, 176, 131], 0x6e),
    ([2, 87, 193, 176, 196, 52, 56, 49, 179, 50, 52, 131], 0xe9),
    ([2, 87, 193, 49, 176, 176, 52, 49, 49, 179, 176, 131], 0x13),
    ([2, 87, 193, 49, 176, 176, 52, 49, 179, 50, 52, 131], 0x94),
    ([2, 211, 88, 49, 131], 0xb9),
    ([2, 211, 88, 50, 131], 0xba),
    ([2, 211, 88, 179, 131], 0x3b),
    ([2, 211, 88, 181, 131], 0x3d),
    ([2, 211, 88, 182, 131], 0x3e),
    ([2, 211, 205, 49, 131], 0x2c),
    ([2, 211, 205, 50, 131], 0x2f),
    ([2, 211, 205, 179, 131], 0xae),
    ([2, 211, 205, 52, 131], 0x29),
    ([2, 211, 205, 182, 131], 0xab),
    ([2, 211, 205, 55, 131], 0x2a),
    ([2, 88, 131], 0x5b) ]

/-- Embeds shim_checksum: dictionary lookup keyed by the exact frame
bytes; the KeyError raised on any other frame is modelled as `none`. -/
def shim_checksum? (msg : List Nat) : Option Nat :=
  dict_stopgap.lookup msg

/-- Embeds str2shim: wrap the message as STX, message, 0x83 and append
the looked-up checksum byte (KeyError modelled as `none`). -/
def str2shim (msg : List Nat) : Option (List Nat) :=
  let cmd := [2] ++ msg ++ [131]
  (shim_checksum? cmd).map (fun c => cmd ++ [c])

/-- Embeds hex2ascii: reduce every byte modulo 128. -/
def hex2ascii (bytelist : List Nat) : List Nat :=
  bytelist.map (fun b => b % 128)

/-- Embeds shim2str.  The source condition is literally True or
bytestr[-1] == shim_checksum(bytestr[:-1]) — annotated NTS 20200719:
True is temporary here! — so the checksum comparison is short-circuited
away and the else branch returning None is dead code.  The value branch
drops the last byte, folds each byte modulo 128, drops the leading STX
and trailing 0x03, and strips whitespace (the utf-8 decode is the
identity on the sub-128 bytes produced by the fold). -/
def shim2str (bytestr : List Nat) : Option (List Nat) :=
  if true || (bytestr.getLast? == shim_checksum? bytestr.dropLast)
  then some (pyStrip (((hex2ascii bytestr.dropLast).drop 1).dropLast))
  else none

/-! ### neslabrte.py — NESLAB RTE binary bath protocol -/

/-- Embeds checksum of neslabrte.py: bitwise inversion (xor 0xff) of the
byte sum, reduced modulo 256. -/
def checksum (bytelist : List Nat) : Nat :=
  (bytelist.sum ^^^ 0xff) % 256

/-- Embeds enframe for the RS-232 (non-multidrop) branch: lead byte
0xca, address bytes 0x00 0x01, command byte, data length, data, then
the checksum over everything after the lead byte. -/
def enframe (cmd dat : List Nat) : List Nat :=
  [0xca, 0x00, 0x01] ++ cmd ++ [dat.length] ++ dat
    ++ [checksum (([0xca, 0x00, 0x01] ++ cmd ++ [dat.length] ++ dat).drop 1)]

/-- Embeds the reply validation of NeslabController.query: the four-byte
leader (lead char, two address bytes, command) must equal the first four
bytes of the sent query, and the final byte must equal the checksum
recomputed over the bytes strictly between the lead byte and the
checkbyte (reply[1:-1]). -/
def neslabValidate (query reply : List Nat) : Bool :=
  (reply.take 4 == query.take 4) &&
    (reply.getLast? == some (checksum (reply.drop 1).dropLast))

/-- Possible outcomes of the query loop on a finite reply stream: the
loop returns data from the first validated reply; or an empty read makes
it crash with the uncaught IndexError that reply[-1] raises before any
validation runs; or it consumes the whole stream and is still waiting
for a valid reply (in the running program it would block on the next
read). -/
inductive QueryOutcome : Type
  | data : List Nat → QueryOutcome
  | crash : QueryOutcome
  | starved : QueryOutcome

/-- Embeds the retry loop of NeslabController.query as a function of the
successive reply frames the serial port yields.  Each iteration first
indexes reply[-1] to size the second read, so an empty reply crashes the
loop with IndexError; a nonempty reply that fails validation is logged
and retried past; the data bytes reply[5:-1] of the first reply that
validates are returned.  The source loop has no retry bound and no error
return. -/
def queryRun (query : List Nat) : List (List Nat) → QueryOutcome
  | [] => QueryOutcome.starved
  | r :: rs =>
    if r = [] then QueryOutcome.crash
    else if neslabValidate query r then QueryOutcome.data ((r.drop 5).dropLast)
    else queryRun query rs

/-- Formalization of claim C5 as stated, over the query-loop embedding:
some fixed retry bound N makes query stop returning data whenever the
first N replies are all realizable protocol-error frames (nonempty, so
the loop actually reaches its validation and retry path, but failing
validation). -/
def boundedRetryClaim : Prop :=
  ∃ N : Nat, ∀ replies : List (List Nat),
    (∀ r ∈ replies.take N, r ≠ [] ∧ neslabValidate (enframe [0x20] []) r = false) →
    ∀ d, queryRun (enframe [0x20] []) replies ≠ QueryOutcome.data d

/-! ### viscotheque.py — scheduler-cycle safety interlock and data logger

Measured float quantities are modelled over an arbitrary linear ordered
commutative ring (the claims instantiate it at ℚ or ℤ): the embedded
code only subtracts and compares them. -/

/-- First index of a list satisfying a predicate.  Used to state at
which scheduler cycle a per-cycle check first fires. -/
def firstIdx {α : Type} (p : α → Bool) : List α → Option Nat
  | [] => none
  | v :: vs => if p v then some 0 else (firstIdx p vs).map (· + 1)

/-- Embeds the leak interlock of the viscotheque.py data-logging loop:
each cycle checks whether the current pump volume reading minus the
initial volume strictly exceeds the configured bound and raises the
fatal abort at the first cycle where it does.  Given the per-cycle
volume readings, this is the index of the aborting cycle (none when no
cycle trips the check). -/
def leakAbortCycle {α : Type} [LinearOrderedCommRing α] (v0 bound : α)
    (vols : List α) : Option Nat :=
  firstIdx (fun v => decide (bound < v - v0)) vols

/-- Embeds the change-triggered write decision of the viscotheque.py
data-logging loop: the previous-row buffer starts at None for each
state, a row is written exactly when the intensity of the cycle differs
from the buffered value, and the buffer is updated only when a row is
written.  Returns the write flag of every cycle. -/
def loggerFlags {α : Type} [DecidableEq α] (prev : Option α) : List α → List Bool
  | [] => []
  | v :: vs =>
    if some v = prev then false :: loggerFlags prev vs
    else true :: loggerFlags (some v) vs

/-- The rows the logger writes (the intensity values of the cycles whose
write flag is set), by the same recursion as loggerFlags. -/
def writtenRows {α : Type} [DecidableEq α] (prev : Option α) : List α → List α
  | [] => []
  | v :: vs =>
    if some v = prev then writtenRows prev vs
    else v :: writtenRows (some v) vs

/-- The last written row after processing a cycle sequence, or the
initial buffer value when nothing was written. -/
def lastWritten {α : Type} [DecidableEq α] (prev : Option α) (vs : List α) : Option α :=
  match (writtenRows prev vs).getLast? with
  | some w => some w
  | none => prev

/-! ### isotemp_scan.py — state-table generation -/

/-- Embeds product_dict for two declared range fields: itertools.product
in declared key order, first field outermost. -/
def product_dict {α β : Type} (as : List α) (bs : List β) : List (α × β) :=
  as.flatMap (fun a => bs.map (fun b => (a, b)))

/-- The lexicographic key comparison performed by sort_values for rank
list [A, B] with both columns ascending. -/
def stateLe {α β : Type} [LinearOrder α] [LinearOrder β] (p q : α × β) : Prop :=
  p.1 < q.1 ∨ (p.1 = q.1 ∧ p.2 ≤ q.2)

instance stateLeDecidable {α β : Type} [LinearOrder α] [LinearOrder β] :
    DecidableRel (@stateLe α β _ _) := fun p q => by
  unfold stateLe
  infer_instance

/-- Embeds the state-table construction of isotemp_scan.py main for two
range fields ranked [A, B]: cartesian product of the ranges, sort by the
rank columns ascending, then the trailing iloc reversal the source
applies (annotated NTS 20200714 as temporary). -/
def scanStates {α β : Type} [LinearOrder α] [LinearOrder β]
    (as : List α) (bs : List β) : List (α × β) :=
  (List.insertionSort stateLe (product_dict as bs)).reverse

/-! ### viscotheque_dph.py — equilibration detection -/

/-- Python max() over a list, none on the empty list (where Python
raises). -/
def listMax? {α : Type} [LinearOrder α] : List α → Option α
  | [] => none
  | x :: xs =>
    match listMax? xs with
    | none => some x
    | some m => some (max x m)

/-- Python min() over a list, none on the empty list (where Python
raises). -/
def listMin? {α : Type} [LinearOrder α] : List α → Option α
  | [] => none
  | x :: xs =>
    match listMin? xs with
    | none => some x
    | some m => some (min x m)

/-- Embeds the trailing-window trace of one setpoint variable: the
measured values of the buffered samples whose watch timestamp lies
within the minimum equilibration time of the newest sample (a sample is
a watch-timestamp, measured-value pair). -/
def windowTrace {α : Type} [LinearOrderedCommRing α] (minE : α)
    (trail : List (α × α)) : List α :=
  match trail.getLast? with
  | none => []
  | some last => (trail.filter (fun s => decide (last.1 - minE ≤ s.1))).map (fun s => s.2)

/-- Embeds the per-variable in-range decision of the viscotheque_dph.py
equilibration loop: if the time elapsed in the state has reached the
variable timeout the variable is in range regardless of its trace; else
if the minimum equilibration time has elapsed, the variable is in range
when the window trace maximum is strictly below setpoint plus tolerance
and the minimum strictly above setpoint minus tolerance; else the
variable stays out of range. -/
def in_range_var {α : Type} [LinearOrderedCommRing α]
    (elapsed minE maxE setp tol : α) (trail : List (α × α)) : Bool :=
  if maxE ≤ elapsed then true
  else if minE ≤ elapsed then
    match listMax? (windowTrace minE trail), listMin? (windowTrace minE trail) with
    | some hi, some lo => decide (hi < setp + tol) && decide (setp - tol < lo)
    | _, _ => false
  else false

/-- Embeds vars_wait, the list of equilibration variables whose setpoint
changed from the previous state. -/
def vars_wait (fields : List Nat) (chg : Nat → Bool) : List Nat :=
  fields.filter chg

/-- Embeds all(in_range.values()): every variable that has to wait is in
range. -/
def allCleared (fields : List Nat) (chg : Nat → Bool) (inR : Nat → Bool) : Bool :=
  (vars_wait fields chg).all inR

/-! ### Helper lemmas on the hex formatting and stripping primitives -/

set_option maxRecDepth 100000 in
theorem format02x_parse : ∀ n < 256,
    parseHexList? ((format02xLower n).map upperChar) = some n := by decide

set_option maxRecDepth 100000 in
theorem format02x_len : ∀ n < 256,
    ((format02xLower n).map upperChar).length = 2 := by decide

set_option maxRecDepth 100000 in
theorem format02x_last_nonspace : ∀ n < 256,
    (((format02xLower n).map upperChar).getLast?.all fun c => !pyIsSpace c) = true := by
  decide

theorem pyRstrip_append13 (l : List Nat) : pyRstrip (l ++ [13]) = pyRstrip l := by
  simp [pyRstrip, List.reverse_append, List.dropWhile_cons,
    show pyIsSpace 13 = true from rfl]

theorem pyRstrip_eq_self {l : List Nat} {c : Nat} (h : l.getLast? = some c)
    (hc : pyIsSpace c = false) : pyRstrip l = l := by
  have hh : l.reverse.head? = some c := by rw [List.head?_reverse, h]
  have hl : l.reverse.reverse = l := List.reverse_reverse l
  unfold pyRstrip
  cases hr : l.reverse with
  | nil => rw [hr] at hh; exact absurd hh (by simp)
  | cons x t =>
    rw [hr] at hh hl
    have hx : x = c := by simpa using hh
    subst hx
    rw [List.dropWhile_cons, hc]
    simpa using hl

/-- Core computation of dasnet2str on a well-shaped frame: a
two-character leader, two hex length characters that parse back to the
message length, the message, the matching two-character checksum, and
the carriage return. -/
theorem dasnet2str_frame (a1 a2 l1 l2 c1 c2 : Nat) (M : List Nat)
    (hparse : parseHexList? [l1, l2] = some M.length)
    (hC : [c1, c2] = dasnet_checksum (a1 :: a2 :: l1 :: l2 :: M))
    (hc2 : pyIsSpace c2 = false) :
    dasnet2str (a1 :: a2 :: l1 :: l2 :: (M ++ [c1, c2, 13])) = some M := by
  have h13 : a1 :: a2 :: l1 :: l2 :: (M ++ [c1, c2, 13])
      = (a1 :: a2 :: l1 :: l2 :: (M ++ [c1, c2])) ++ [13] := by simp
  have hlast : (a1 :: a2 :: l1 :: l2 :: (M ++ [c1, c2])).getLast? = some c2 := by
    have hx : a1 :: a2 :: l1 :: l2 :: (M ++ [c1, c2])
        = (a1 :: a2 :: l1 :: l2 :: (M ++ [c1])) ++ [c2] := by simp
    rw [hx, List.getLast?_concat]
  have hstrip : pyRstrip (a1 :: a2 :: l1 :: l2 :: (M ++ [c1, c2, 13]))
      = a1 :: a2 :: l1 :: l2 :: (M ++ [c1, c2]) := by
    rw [h13, pyRstrip_append13]
    exact pyRstrip_eq_self hlast hc2
  have hsplit : a1 :: a2 :: l1 :: l2 :: (M ++ [c1, c2])
      = (a1 :: a2 :: l1 :: l2 :: M) ++ [c1, c2] := by simp
  have hlensub : (a1 :: a2 :: l1 :: l2 :: (M ++ [c1, c2])).length - 2
      = (a1 :: a2 :: l1 :: l2 :: M).length := by
    simp
  have htakemid : (a1 :: a2 :: l1 :: l2 :: (M ++ [c1, c2])).take
      ((a1 :: a2 :: l1 :: l2 :: (M ++ [c1, c2])).length - 2)
      = a1 :: a2 :: l1 :: l2 :: M := by
    rw [hlensub, hsplit, List.take_left]
  have hdropend : (a1 :: a2 :: l1 :: l2 :: (M ++ [c1, c2])).drop
      ((a1 :: a2 :: l1 :: l2 :: (M ++ [c1, c2])).length - 2)
      = [c1, c2] := by
    rw [hlensub, hsplit, List.drop_left]
  have hslice : pySlice (a1 :: a2 :: l1 :: l2 :: (M ++ [c1, c2])) 2 4 = [l1, l2] := rfl
  have hmsgdrop : (a1 :: a2 :: l1 :: l2 :: M).drop 4 = M := rfl
  rw [dasnet2str]
  simp only [hstrip]
  rw [if_neg (by simp)]
  simp only [hslice, hparse, htakemid, hdropend, hmsgdrop]
  exact if_pos ⟨trivial, hC⟩

/-- Round trip through the DASNET codec, under the side conditions the
source imposes: the message must already be uppercase (str2dasnet
uppercases the whole command), shorter than 256 characters (so its
length fits in the two hex digits the decoder reads back), source and
destination addresses must together be exactly one character (the
decoder assumes a two-character acknowledgement-plus-address leader),
and the command character sum must not be a multiple of 256 (there the
encoder emits a three-digit checksum, which desynchronizes the decoder
slices). -/
theorem dasnet_roundtrip (msg source dest : List Nat)
    (hupper : msg.map upperChar = msg)
    (hlen : msg.length < 256)
    (haddr : source.length + dest.length = 1)
    (hsum : (dasnetCmd msg source dest).sum % 256 ≠ 0) :
    dasnet2str (str2dasnet msg source dest) = some msg := by
  obtain ⟨a1, a2, hA⟩ : ∃ a b, (dest ++ [82] ++ source).map upperChar = [a, b] := by
    rw [← List.length_eq_two]
    simp only [List.length_map, List.length_append, List.length_cons, List.length_nil]
    omega
  obtain ⟨l1, l2, hL⟩ := List.length_eq_two.mp (format02x_len msg.length hlen)
  have hcmd : dasnetCmd msg source dest = a1 :: a2 :: l1 :: l2 :: msg := by
    have hdist : dasnetCmd msg source dest
        = ((dest ++ [82] ++ source).map upperChar)
          ++ ((format02xLower msg.length).map upperChar)
          ++ (msg.map upperChar) := by
      simp [dasnetCmd, List.map_append]
    rw [hdist, hA, hL, hupper]
    rfl
  have hcsval : 256 - (dasnetCmd msg source dest).sum % 256 < 256 := by
    have hm := Nat.mod_lt ((dasnetCmd msg source dest).sum) (show 0 < 256 by norm_num)
    omega
  obtain ⟨c1, c2, hC2⟩ := List.length_eq_two.mp (format02x_len _ hcsval)
  have hCeq : dasnet_checksum (dasnetCmd msg source dest) = [c1, c2] := by
    rw [dasnet_checksum]
    exact hC2
  have hc2space : pyIsSpace c2 = false := by
    have hall := format02x_last_nonspace _ hcsval
    rw [hC2] at hall
    simpa using hall
  have hframe : str2dasnet msg source dest
      = a1 :: a2 :: l1 :: l2 :: (msg ++ [c1, c2, 13]) := by
    rw [str2dasnet, hCeq, hcmd]
    simp
  rw [hframe]
  refine dasnet2str_frame a1 a2 l1 l2 c1 c2 msg ?_ ?_ hc2space
  · rw [← hL]
    exact format02x_parse msg.length hlen
  · rw [← hcmd]
    exact hCeq.symm

/-- Round trip through the Shimadzu handshake codec: when the framed
message is in the checksum table, all message bytes are below 128 (the
decoder folds bytes modulo 128) and the message has no leading or
trailing whitespace (the decoder strips), decoding the encoded frame
returns the message. -/
theorem shim_roundtrip (msg frame : List Nat)
    (henc : str2shim msg = some frame)
    (hbytes : ∀ b ∈ msg, b < 128)
    (hstrip : pyStrip msg = msg) :
    shim2str frame = some msg := by
  obtain ⟨c, hframe⟩ : ∃ c, frame = ([2] ++ msg ++ [131]) ++ [c] := by
    rw [str2shim] at henc
    cases h : shim_checksum? ([2] ++ msg ++ [131]) with
    | none => rw [h] at henc; cases henc
    | some c =>
      rw [h] at henc
      exact ⟨c, by simpa using henc.symm⟩
  subst hframe
  rw [shim2str, if_pos (by simp)]
  rw [List.dropLast_concat]
  have hmap : hex2ascii ([2] ++ msg ++ [131]) = [2] ++ msg ++ [3] := by
    rw [hex2ascii, List.map_append, List.map_append]
    have hid : msg.map (fun b => b % 128) = msg := by
      have : msg.map (fun b => b % 128) = msg.map id :=
        List.map_congr_left (fun b hb => Nat.mod_eq_of_lt (hbytes b hb))
      rw [this, List.map_id]
    rw [hid]
    rfl
  rw [hmap]
  have hdrop : (([2] ++ msg ++ [3]).drop 1) = msg ++ [3] := by simp
  rw [hdrop, List.dropLast_concat, hstrip]

/-! ### Claim theorems C1 to C3 -/

/-- Claim C1 (code bug evidence): the handshake decoder shim2str accepts
a frame whose final byte 0 differs from the table checksum 0x51 of the
preceding bytes and still yields the decoded message, because the source
guards the checksum comparison with a literal True (annotated as
temporary).  The claim says such a frame yields no value. -/
theorem c1_shim2str_accepts_bad_checksum :
    shim2str [2, 82, 131, 0] = some [82] ∧
    shim_checksum? [2, 82, 131] = some 81 ∧ (0 : Nat) ≠ 81 := by decide

/-- Claim C2 (counterexample): with the default empty source and
destination addresses, the DASNET round trip of the one-character
message A yields no value rather than the message, because the decoder
expects a two-character leader the encoder did not produce; and the
handshake round trip of the enumerated message 0xd6 yields the
byte 0x56 (the byte folded modulo 128), not the original message. -/
theorem c2_roundtrip_counterexample :
    dasnet2str (str2dasnet [65] [] []) = none ∧
    none ≠ some ([65] : List Nat) ∧
    (str2shim [214]).bind shim2str = some [86] ∧
    some ([86] : List Nat) ≠ some [214] := by decide

/-- Claim C2 (amended): decode of encode returns the original message
under the side conditions the source imposes.  DASNET: the message is
uppercase-stable, shorter than 256 characters, source plus destination
addresses are exactly one character, and the command character sum is
not a multiple of 256.  Handshake: the framed message is in the checksum
table, its bytes are below 128, and it has no surrounding whitespace. -/
theorem c2_roundtrip_amended :
    (∀ msg source dest : List Nat,
      msg.map upperChar = msg →
      msg.length < 256 →
      source.length + dest.length = 1 →
      (dasnetCmd msg source dest).sum % 256 ≠ 0 →
      dasnet2str (str2dasnet msg source dest) = some msg) ∧
    (∀ msg frame : List Nat,
      str2shim msg = some frame →
      (∀ b ∈ msg, b < 128) →
      pyStrip msg = msg →
      shim2str frame = some msg) :=
  ⟨dasnet_roundtrip, shim_roundtrip⟩

/-- Claim C2 witness: the amended round trip evaluated on the DASNET
message A with source 1 and empty destination, and on the enumerated
handshake message R. -/
theorem c2_roundtrip_witness :
    dasnet2str (str2dasnet [65] [49] []) = some [65] ∧
    shim2str [2, 82, 131, 81] = some [82] :=
  ⟨c2_roundtrip_amended.1 [65] [49] [] (by decide) (by decide) (by decide)
      (by decide),
    c2_roundtrip_amended.2 [82] [2, 82, 131, 81] (by decide) (by decide)
      (by decide)⟩

/-- Claim C3 (code bug evidence): dasnet_checksum of a command whose
character sum is the exact multiple 256 of 256 is the three-character
string 100, not a two-digit hex string in the range 00 to FF as the
claim states, because the source computes 256 minus the reduced sum
without reducing modulo 256 again. -/
theorem c3_dasnet_checksum_overflow :
    ([64, 64, 64, 64] : List Nat).sum % 256 = 0 ∧
    dasnet_checksum [64, 64, 64, 64] = [49, 48, 48] ∧
    (dasnet_checksum [64, 64, 64, 64]).length ≠ 2 := by decide

/-! ### NESLAB checksum and validation lemmas -/

theorem mod256_eq_and (n : Nat) : n % 256 = n &&& 255 := by
  have h := Nat.and_pow_two_sub_one_eq_mod n 8
  norm_num at h
  omega

/-- Checksum as xor applied after the modulo reduction: the xor with 255
only touches the low eight bits, so it commutes with reduction mod 256. -/
theorem checksum_eq (l : List Nat) : checksum l = (l.sum % 256) ^^^ 255 := by
  rw [checksum, show (0xff : Nat) = 255 from rfl, mod256_eq_and, mod256_eq_and,
    Nat.and_xor_distrib_right]
  norm_num

/-- Replacing one byte of a list by a different byte changes the NESLAB
checksum: the byte sums differ by less than 256, so they stay apart
modulo 256, and xor with 255 is injective. -/
theorem checksum_change {w z : List Nat} {x y : Nat} (hx : x < 256) (hy : y < 256)
    (hne : x ≠ y) : checksum (w ++ x :: z) ≠ checksum (w ++ y :: z) := by
  rw [checksum_eq, checksum_eq]
  intro h
  have hmods : (w ++ x :: z).sum % 256 = (w ++ y :: z).sum % 256 := by
    have hxor := congrArg (fun t => t ^^^ 255) h
    simpa [Nat.xor_cancel_right] using hxor
  have e1 : (w ++ x :: z).sum = w.sum + z.sum + x := by
    rw [List.sum_append, List.sum_cons]
    ring
  have e2 : (w ++ y :: z).sum = w.sum + z.sum + y := by
    rw [List.sum_append, List.sum_cons]
    ring
  rw [e1, e2] at hmods
  omega

/-- Changing any single byte of a validated reply frame makes
NeslabController.query reject it: a change in the first four bytes
breaks the leader comparison, a change in the middle breaks the checksum
comparison, and a change of the checkbyte no longer matches the
recomputed checksum. -/
theorem neslab_reject_single_change (q u v : List Nat) (x y : Nat)
    (hlen : 6 ≤ (u ++ x :: v).length)
    (hbytes : ∀ b ∈ u ++ x :: v, b < 256)
    (hy : y < 256) (hne : y ≠ x)
    (hvalid : neslabValidate q (u ++ x :: v) = true) :
    neslabValidate q (u ++ y :: v) = false := by
  rw [neslabValidate, Bool.and_eq_true, beq_iff_eq, beq_iff_eq] at hvalid
  obtain ⟨hv1, hv2⟩ := hvalid
  have hxlt : x < 256 := hbytes x (by simp)
  by_cases hu : u.length < 4
  · -- the changed byte sits inside the four-byte leader
    have hfour : (4 : Nat) = u.length + (3 - u.length + 1) := by omega
    have htx : (u ++ x :: v).take 4 = u ++ x :: v.take (3 - u.length) := by
      rw [hfour, List.take_append, List.take_succ_cons]
    have hty : (u ++ y :: v).take 4 = u ++ y :: v.take (3 - u.length) := by
      rw [hfour, List.take_append, List.take_succ_cons]
    have hfirst : ((u ++ y :: v).take 4 == q.take 4) = false := by
      rw [beq_eq_false_iff_ne]
      intro heq
      rw [hty, ← hv1, htx] at heq
      have := List.append_cancel_left heq
      exact hne (by injection this)
    rw [neslabValidate, hfirst, Bool.false_and]
  · -- the changed byte sits at or after index 4
    obtain ⟨u0, ut, rfl⟩ : ∃ a t, u = a :: t := by
      cases u with
      | nil => simp at hu
      | cons a t => exact ⟨a, t, rfl⟩
    rcases List.eq_nil_or_concat v with rfl | ⟨vd, vl, rfl⟩
    · -- the changed byte is the checkbyte itself
      have hmx : ((u0 :: ut ++ x :: []).drop 1).dropLast = ut := by simp
      have hmy : ((u0 :: ut ++ y :: []).drop 1).dropLast = ut := by simp
      have hlx : (u0 :: ut ++ x :: []).getLast? = some x := by
        rw [show u0 :: ut ++ x :: [] = (u0 :: ut) ++ [x] from rfl, List.getLast?_concat]
      have hly : (u0 :: ut ++ y :: []).getLast? = some y := by
        rw [show u0 :: ut ++ y :: [] = (u0 :: ut) ++ [y] from rfl, List.getLast?_concat]
      rw [hmx, hlx] at hv2
      have hx2 : x = checksum ut := by injection hv2
      have hsecond : ((u0 :: ut ++ y :: []).getLast?
          == some (checksum ((u0 :: ut ++ y :: []).drop 1).dropLast)) = false := by
        rw [beq_eq_false_iff_ne, hly, hmy]
        intro heq
        have h0 : y = checksum ut := by injection heq
        exact hne (h0.trans hx2.symm)
      rw [neslabValidate, hsecond, Bool.and_false]
    · -- the changed byte is between the leader and the checkbyte
      rw [List.concat_eq_append] at *
      have hmx : ((u0 :: ut ++ x :: (vd ++ [vl])).drop 1).dropLast = ut ++ x :: vd := by
        rw [show u0 :: ut ++ x :: (vd ++ [vl]) = u0 :: ((ut ++ x :: vd) ++ [vl]) from by simp]
        rw [show List.drop 1 (u0 :: ((ut ++ x :: vd) ++ [vl])) = (ut ++ x :: vd) ++ [vl] from rfl,
          List.dropLast_concat]
      have hmy : ((u0 :: ut ++ y :: (vd ++ [vl])).drop 1).dropLast = ut ++ y :: vd := by
        rw [show u0 :: ut ++ y :: (vd ++ [vl]) = u0 :: ((ut ++ y :: vd) ++ [vl]) from by simp]
        rw [show List.drop 1 (u0 :: ((ut ++ y :: vd) ++ [vl])) = (ut ++ y :: vd) ++ [vl] from rfl,
          List.dropLast_concat]
      have hlx : (u0 :: ut ++ x :: (vd ++ [vl])).getLast? = some vl := by
        rw [show u0 :: ut ++ x :: (vd ++ [vl]) = (u0 :: ut ++ x :: vd) ++ [vl] from by simp,
          List.getLast?_concat]
      have hly : (u0 :: ut ++ y :: (vd ++ [vl])).getLast? = some vl := by
        rw [show u0 :: ut ++ y :: (vd ++ [vl]) = (u0 :: ut ++ y :: vd) ++ [vl] from by simp,
          List.getLast?_concat]
      rw [hmx, hlx] at hv2
      have hvlval : vl = checksum (ut ++ x :: vd) := by injection hv2
      have hsecond : ((u0 :: ut ++ y :: (vd ++ [vl])).getLast?
          == some (checksum ((u0 :: ut ++ y :: (vd ++ [vl])).drop 1).dropLast)) = false := by
        rw [beq_eq_false_iff_ne, hly, hmy]
        intro heq
        have hvly : vl = checksum (ut ++ y :: vd) := by injection heq
        exact checksum_change hxlt hy (fun hxy => hne hxy.symm) (hvlval.symm.trans hvly)
      rw [neslabValidate, hsecond, Bool.and_false]

/-- Query-loop lemma: nonempty invalid replies are skipped one by one. -/
theorem queryRun_skip (q : List Nat) (pre rest : List (List Nat))
    (hpre : ∀ r ∈ pre, r ≠ [] ∧ neslabValidate q r = false) :
    queryRun q (pre ++ rest) = queryRun q rest := by
  induction pre with
  | nil => rfl
  | cons r pre ih =>
    obtain ⟨hne, hinv⟩ := hpre r (by simp)
    rw [List.cons_append, queryRun, if_neg hne, hinv]
    simp only [Bool.false_eq_true, if_false]
    exact ih (fun s hs => hpre s (by simp [hs]))

/-- Query-loop lemma: a stream of only nonempty invalid replies is
consumed without producing data. -/
theorem queryRun_starved (q : List Nat) (rs : List (List Nat))
    (hall : ∀ r ∈ rs, r ≠ [] ∧ neslabValidate q r = false) :
    queryRun q rs = QueryOutcome.starved := by
  have h := queryRun_skip q rs [] hall
  rw [List.append_nil] at h
  exact h

/-! ### Claim theorems C4 and C5 -/

/-- Claim C4: for the binary bath protocol, checksum equals the byte sum
xored with 0xff and masked to a byte; and changing any single byte of a
reply frame that passes the query validation (leader match plus checksum
over the bytes between lead byte and checkbyte) makes the validation
reject the frame. -/
theorem c4_checksum_and_single_byte_rejection :
    (∀ b : List Nat, checksum b = (b.sum ^^^ 0xff) &&& 0xff) ∧
    (∀ (q u v : List Nat) (x y : Nat),
      6 ≤ (u ++ x :: v).length →
      (∀ b ∈ u ++ x :: v, b < 256) →
      y < 256 → y ≠ x →
      neslabValidate q (u ++ x :: v) = true →
      neslabValidate q (u ++ y :: v) = false) :=
  ⟨fun b => by rw [checksum, show (0xff : Nat) = 255 from rfl, mod256_eq_and],
    neslab_reject_single_change⟩

/-- Claim C4 witness: a concrete valid six-byte reply to a status query
is accepted, and the same frame with its command byte changed from 1
to 2 is rejected. -/
theorem c4_witness :
    neslabValidate [202, 0, 1, 32, 0, 222] [202, 0, 1, 32, 0, 222] = true ∧
    neslabValidate [202, 0, 1, 32, 0, 222] [202, 0, 2, 32, 0, 222] = false :=
  ⟨by decide,
    c4_checksum_and_single_byte_rejection.2 [202, 0, 1, 32, 0, 222] [202, 0]
      [32, 0, 222] 1 2 (by decide) (by decide) (by decide) (by decide) (by decide)⟩

/-- Claim C5 (counterexample): no fixed retry bound exists after which
query reports failure — for every candidate bound N, a stream of N
realizable corrupt replies (six-byte frames whose lead byte 0xcb does
not echo the sent 0xca leader, so validation rejects and the loop
retries) followed by one valid reply still makes the query loop return
that valid data, so the loop never gives up. -/
theorem c5_counterexample : ¬ boundedRetryClaim := by
  rintro ⟨N, h⟩
  have hq : neslabValidate (enframe [0x20] []) (enframe [0x20] []) = true := by decide
  have hbad : ∀ r ∈ List.replicate N ([0xcb, 0, 1, 0x20, 0, 222] : List Nat),
      r ≠ [] ∧ neslabValidate (enframe [0x20] []) r = false := by
    intro r hr
    rw [List.eq_of_mem_replicate hr]
    exact ⟨by decide, by decide⟩
  have htake : (List.replicate N ([0xcb, 0, 1, 0x20, 0, 222] : List Nat)
      ++ [enframe [0x20] []]).take N
      = List.replicate N ([0xcb, 0, 1, 0x20, 0, 222] : List Nat) := by
    have h0 := List.take_left (List.replicate N ([0xcb, 0, 1, 0x20, 0, 222] : List Nat))
      [enframe [0x20] []]
    rwa [List.length_replicate] at h0
  have hrun : queryRun (enframe [0x20] [])
      (List.replicate N [0xcb, 0, 1, 0x20, 0, 222] ++ [enframe [0x20] []])
      = QueryOutcome.data [] := by
    rw [queryRun_skip _ _ _ hbad, queryRun, if_neg (by decide), hq]
    rfl
  exact h (List.replicate N [0xcb, 0, 1, 0x20, 0, 222] ++ [enframe [0x20] []])
    (fun r hr => hbad r (by rwa [htake] at hr)) [] hrun

/-- Claim C5 (amended): NeslabController.query retries protocol errors
without bound and returns no transport error: it returns the data bytes
of the first reply that passes validation no matter how many nonempty
invalid replies precede it; a reply stream that never validates produces
no value at all (in the running program the loop blocks); and an empty
read does not enter the retry path but crashes the loop with an uncaught
IndexError at reply[-1]. -/
theorem c5_unbounded_retry :
    (∀ (q r : List Nat) (pre post : List (List Nat)),
      (∀ s ∈ pre, s ≠ [] ∧ neslabValidate q s = false) →
      neslabValidate q r = true →
      queryRun q (pre ++ r :: post) = QueryOutcome.data ((r.drop 5).dropLast)) ∧
    (∀ (q : List Nat) (rs : List (List Nat)),
      (∀ s ∈ rs, s ≠ [] ∧ neslabValidate q s = false) →
      queryRun q rs = QueryOutcome.starved) ∧
    (∀ (q : List Nat) (pre post : List (List Nat)),
      (∀ s ∈ pre, s ≠ [] ∧ neslabValidate q s = false) →
      queryRun q (pre ++ [] :: post) = QueryOutcome.crash) := by
  refine ⟨?_, queryRun_starved, ?_⟩
  · intro q r pre post hpre hr
    have hrne : r ≠ [] := by
      rintro rfl
      rw [neslabValidate] at hr
      simp at hr
    rw [queryRun_skip q pre _ hpre, queryRun, if_neg hrne, hr]
    simp
  · intro q pre post hpre
    rw [queryRun_skip q pre _ hpre, queryRun, if_pos rfl]

/-- Claim C5 witness: six corrupt wrong-leader frames followed by a
valid echo of the query still yield that reply's (empty) data payload. -/
theorem c5_witness :
    queryRun (enframe [0x20] [])
      (List.replicate 6 [0xcb, 0, 1, 0x20, 0, 222] ++ [enframe [0x20] []])
      = QueryOutcome.data [] :=
  c5_unbounded_retry.1 (enframe [0x20] []) (enframe [0x20] [])
    (List.replicate 6 [0xcb, 0, 1, 0x20, 0, 222]) []
    (fun s hs => by rw [List.eq_of_mem_replicate hs]; exact ⟨by decide, by decide⟩)
    (by decide)

/-! ### Scheduler-cycle lemmas -/

/-- Characterization of the first index satisfying a predicate. -/
theorem firstIdx_eq_some_iff {α : Type} (p : α → Bool) (l : List α) (i : Nat) :
    firstIdx p l = some i ↔
      (∃ v, l[i]? = some v ∧ p v = true) ∧
      (∀ j < i, ∀ w, l[j]? = some w → p w = false) := by
  induction l generalizing i with
  | nil => simp [firstIdx]
  | cons v vs ih =>
    by_cases hp : p v
    · rw [firstIdx, if_pos hp]
      constructor
      · intro h
        obtain rfl : (0 : Nat) = i := by injection h
        exact ⟨⟨v, by simp, hp⟩, fun j hj => absurd hj (by omega)⟩
      · rintro ⟨⟨w, hw, hpw⟩, hbefore⟩
        cases i with
        | zero => rfl
        | succ k =>
          exact absurd (hbefore 0 (by omega) v (by simp)) (by simp [hp])
    · rw [firstIdx, if_neg hp]
      constructor
      · intro h
        obtain ⟨k, hk, rfl⟩ : ∃ k, firstIdx p vs = some k ∧ i = k + 1 := by
          cases hfi : firstIdx p vs with
          | none => rw [hfi] at h; cases h
          | some k =>
            rw [hfi] at h
            have h' : some (k + 1) = some i := h
            exact ⟨k, rfl, by injection h' with h0; omega⟩
        obtain ⟨⟨w, hw, hpw⟩, hbef⟩ := (ih k).mp hk
        refine ⟨⟨w, by simpa using hw, hpw⟩, ?_⟩
        intro j hj w' hw'
        cases j with
        | zero =>
          have hwv : w' = v := by simpa using hw'.symm
          rw [hwv]
          exact Bool.not_eq_true _ ▸ (by simpa using hp)
        | succ j' => exact hbef j' (by omega) w' (by simpa using hw')
      · rintro ⟨⟨w, hw, hpw⟩, hbef⟩
        cases i with
        | zero =>
          have hwv : w = v := by simpa using hw.symm
          rw [hwv] at hpw
          exact absurd hpw hp
        | succ k =>
          have hk := (ih k).mpr ⟨⟨w, by simpa using hw, hpw⟩,
            fun j hj w' hw' => hbef (j + 1) (by omega) w' (by simpa using hw')⟩
          rw [hk]
          rfl

/-- The last element of a cons in terms of the last element of the
tail. -/
theorem getLast?_cons_or {α : Type} (a : α) (l : List α) :
    (a :: l).getLast? = (l.getLast?).or (some a) := by
  cases l with
  | nil => rfl
  | cons b t =>
    rw [List.getLast?_cons_cons]
    cases h : (b :: t).getLast? with
    | none =>
      rw [List.getLast?_eq_none_iff] at h
      cases h
    | some w => rfl

/-- Processing one cycle advances the previous-row buffer exactly when a
row is written. -/
theorem lastWritten_cons {α : Type} [DecidableEq α] (prev : Option α) (v : α)
    (l : List α) :
    lastWritten prev (v :: l)
      = lastWritten (if some v = prev then prev else some v) l := by
  by_cases hv : some v = prev
  · rw [if_pos hv, lastWritten, writtenRows, if_pos hv, lastWritten]
  · rw [if_neg hv, lastWritten, writtenRows, if_neg hv, getLast?_cons_or, lastWritten]
    cases hW : (writtenRows (some v) l).getLast? with
    | none => rfl
    | some w => rfl

/-- The write flag of every cycle is set exactly when the cycle value
differs from the last previously written row (or from the initial
buffer when nothing has been written yet). -/
theorem loggerFlags_char {α : Type} [DecidableEq α] (prev : Option α)
    (vs : List α) (i : Nat) :
    (loggerFlags prev vs)[i]? =
      (vs[i]?).map fun v => decide (some v ≠ lastWritten prev (vs.take i)) := by
  induction vs generalizing prev i with
  | nil => simp [loggerFlags]
  | cons v vs ih =>
    by_cases hv : some v = prev
    · rw [loggerFlags, if_pos hv]
      cases i with
      | zero =>
        simp only [List.getElem?_cons_zero, List.take_zero, Option.map_some']
        have hbase : lastWritten prev ([] : List α) = prev := rfl
        simp only [hbase]
        simp [hv]
      | succ k =>
        simp only [List.getElem?_cons_succ, List.take_succ_cons]
        rw [ih prev k]
        simp only [lastWritten_cons, if_pos hv]
    · rw [loggerFlags, if_neg hv]
      cases i with
      | zero =>
        simp only [List.getElem?_cons_zero, List.take_zero, Option.map_some']
        have hbase : lastWritten prev ([] : List α) = prev := rfl
        simp only [hbase]
        simp [hv]
      | succ k =>
        simp only [List.getElem?_cons_succ, List.take_succ_cons]
        rw [ih (some v) k]
        simp only [lastWritten_cons, if_neg hv]

/-! ### State-table lemmas -/

/-- The cartesian product of two strictly ascending ranges is already
sorted by the lexicographic sort key. -/
theorem product_dict_pairwise {α β : Type} [LinearOrder α] [LinearOrder β]
    {as : List α} {bs : List β} (ha : as.Pairwise (· < ·))
    (hb : bs.Pairwise (· < ·)) :
    (product_dict as bs).Pairwise stateLe := by
  induction as with
  | nil => simp [product_dict]
  | cons a as ih =>
    rw [List.pairwise_cons] at ha
    have hstep : product_dict (a :: as) bs
        = bs.map (fun b => (a, b)) ++ product_dict as bs := by
      simp [product_dict]
    rw [hstep, List.pairwise_append]
    refine ⟨?_, ih ha.2, ?_⟩
    · rw [List.pairwise_map]
      exact hb.imp fun hlt => Or.inr ⟨rfl, le_of_lt hlt⟩
    · intro p hp q hq
      obtain ⟨b, hbmem, rfl⟩ := List.mem_map.mp hp
      obtain ⟨a', ha'mem, hq'⟩ := List.mem_flatMap.mp hq
      obtain ⟨b', hb'mem, rfl⟩ := List.mem_map.mp hq'
      exact Or.inl (ha.1 a' ha'mem)

/-- Reversal distributes over flatMap with reversed blocks. -/
theorem reverse_flatMap {α β : Type} (l : List α) (f : α → List β) :
    (l.flatMap f).reverse = l.reverse.flatMap (fun a => (f a).reverse) := by
  induction l with
  | nil => rfl
  | cons a l ih => simp [ih]

/-! ### Equilibration lemmas -/

/-- A value returned by listMax? is a member and an upper bound. -/
theorem listMax?_spec {α : Type} [LinearOrder α] {l : List α} {m : α}
    (h : listMax? l = some m) : m ∈ l ∧ ∀ x ∈ l, x ≤ m := by
  induction l generalizing m with
  | nil => cases h
  | cons x xs ih =>
    rw [listMax?] at h
    cases hx : listMax? xs with
    | none =>
      rw [hx] at h
      obtain rfl : x = m := by injection h
      have hxs : xs = [] := by
        cases xs with
        | nil => rfl
        | cons y ys =>
          exfalso
          rw [listMax?] at hx
          cases hy : listMax? ys with
          | none => rw [hy] at hx; cases hx
          | some k => rw [hy] at hx; cases hx
      subst hxs
      exact ⟨by simp, by simp⟩
    | some k =>
      rw [hx] at h
      obtain rfl : max x k = m := by injection h
      obtain ⟨hk1, hk2⟩ := ih hx
      constructor
      · rcases le_total x k with hle | hle
        · rw [max_eq_right hle]
          exact List.mem_cons_of_mem _ hk1
        · rw [max_eq_left hle]
          exact List.mem_cons_self _ _
      · intro z hz
        rcases List.mem_cons.mp hz with rfl | hz'
        · exact le_max_left _ _
        · exact le_trans (hk2 z hz') (le_max_right _ _)

/-- A value returned by listMin? is a member and a lower bound. -/
theorem listMin?_spec {α : Type} [LinearOrder α] {l : List α} {m : α}
    (h : listMin? l = some m) : m ∈ l ∧ ∀ x ∈ l, m ≤ x := by
  induction l generalizing m with
  | nil => cases h
  | cons x xs ih =>
    rw [listMin?] at h
    cases hx : listMin? xs with
    | none =>
      rw [hx] at h
      obtain rfl : x = m := by injection h
      have hxs : xs = [] := by
        cases xs with
        | nil => rfl
        | cons y ys =>
          exfalso
          rw [listMin?] at hx
          cases hy : listMin? ys with
          | none => rw [hy] at hx; cases hx
          | some k => rw [hy] at hx; cases hx
      subst hxs
      exact ⟨by simp, by simp⟩
    | some k =>
      rw [hx] at h
      obtain rfl : min x k = m := by injection h
      obtain ⟨hk1, hk2⟩ := ih hx
      constructor
      · rcases le_total x k with hle | hle
        · rw [min_eq_left hle]
          exact List.mem_cons_self _ _
        · rw [min_eq_right hle]
          exact List.mem_cons_of_mem _ hk1
      · intro z hz
        rcases List.mem_cons.mp hz with rfl | hz'
        · exact min_le_left _ _
        · exact le_trans (min_le_right _ _) (hk2 z hz')

theorem listMax?_ne_none {α : Type} [LinearOrder α] (l : List α) (h : l ≠ []) :
    ∃ m, listMax? l = some m := by
  cases l with
  | nil => exact absurd rfl h
  | cons x xs =>
    rw [listMax?]
    cases listMax? xs with
    | none => exact ⟨x, rfl⟩
    | some k => exact ⟨max x k, rfl⟩

theorem listMin?_ne_none {α : Type} [LinearOrder α] (l : List α) (h : l ≠ []) :
    ∃ m, listMin? l = some m := by
  cases l with
  | nil => exact absurd rfl h
  | cons x xs =>
    rw [listMin?]
    cases listMin? xs with
    | none => exact ⟨x, rfl⟩
    | some k => exact ⟨min x k, rfl⟩

/-- The trailing window always contains the newest sample, so its trace
is nonempty whenever the buffer is. -/
theorem windowTrace_ne_nil {α : Type} [LinearOrderedCommRing α] (minE : α)
    (trail : List (α × α)) (htrail : trail ≠ []) (hminE : 0 ≤ minE) :
    windowTrace minE trail ≠ [] := by
  obtain ⟨last, hlast⟩ : ∃ p, trail.getLast? = some p := by
    cases htl : trail.getLast? with
    | none =>
      rw [List.getLast?_eq_none_iff] at htl
      exact absurd htl htrail
    | some p => exact ⟨p, rfl⟩
  have hmem : last ∈ trail := by
    have hne := htrail
    rw [List.getLast?_eq_getLast trail hne] at hlast
    have : last = trail.getLast hne := by injection hlast.symm
    rw [this]
    exact List.getLast_mem hne
  rw [windowTrace, hlast]
  have hfil : last ∈ trail.filter (fun s => decide (last.1 - minE ≤ s.1)) := by
    rw [List.mem_filter]
    refine ⟨hmem, by simp only [decide_eq_true_eq]; exact sub_le_self _ hminE⟩
  exact List.ne_nil_of_mem (List.mem_map_of_mem _ hfil)

/-- The in-range decision holds exactly when the timeout has elapsed or
the minimum hold time has elapsed with every window sample strictly
inside the tolerance band. -/
theorem in_range_var_iff {α : Type} [LinearOrderedCommRing α]
    (elapsed minE maxE setp tol : α) (trail : List (α × α))
    (htrail : trail ≠ []) (hminE : 0 ≤ minE) :
    in_range_var elapsed minE maxE setp tol trail = true ↔
      (maxE ≤ elapsed ∨
        (minE ≤ elapsed ∧
          ∀ x ∈ windowTrace minE trail, setp - tol < x ∧ x < setp + tol)) := by
  by_cases hmax : maxE ≤ elapsed
  · rw [in_range_var, if_pos hmax]
    simp [hmax]
  · by_cases hmin : minE ≤ elapsed
    · rw [in_range_var, if_neg hmax, if_pos hmin]
      have hne := windowTrace_ne_nil minE trail htrail hminE
      obtain ⟨hi, hhi⟩ := listMax?_ne_none _ hne
      obtain ⟨lo, hlo⟩ := listMin?_ne_none _ hne
      obtain ⟨hhim, hhile⟩ := listMax?_spec hhi
      obtain ⟨hlom, hloge⟩ := listMin?_spec hlo
      rw [hhi, hlo]
      simp only [Bool.and_eq_true, decide_eq_true_eq]
      constructor
      · rintro ⟨h1, h2⟩
        exact Or.inr ⟨hmin, fun x hx =>
          ⟨lt_of_lt_of_le h2 (hloge x hx), lt_of_le_of_lt (hhile x hx) h1⟩⟩
      · rintro (h | ⟨-, hband⟩)
        · exact absurd h hmax
        · exact ⟨(hband hi hhim).2, (hband lo hlom).1⟩
    · rw [in_range_var, if_neg hmax, if_neg hmin]
      simp [hmax, hmin]

/-! ### Claim theorems C6 to C10 -/

/-- Claim C6: the leak interlock aborts on exactly the first scheduler
cycle whose measured volume exceeds the initial volume by strictly more
than the configured bound and never earlier; with volume increasing one
unit per cycle from the initial volume and bound 20, the abort fires at
cycle index 20, where cumulative displacement 21 first exceeds 20. -/
theorem c6_leak_abort_exactly_first_exceeding_cycle :
    (∀ (α : Type) [_inst : LinearOrderedCommRing α] (v0 bound : α)
       (vols : List α) (i : Nat),
       leakAbortCycle v0 bound vols = some i ↔
         (∃ v, vols[i]? = some v ∧ bound < v - v0) ∧
         (∀ j < i, ∀ w, vols[j]? = some w → w - v0 ≤ bound)) ∧
    leakAbortCycle (0 : ℤ) 20 ((List.range 40).map fun k => (k : ℤ) + 1)
      = some 20 := by
  constructor
  · intro α _inst v0 bound vols i
    rw [leakAbortCycle, firstIdx_eq_some_iff]
    simp only [decide_eq_true_eq, decide_eq_false_iff_not, not_lt]
  · decide

/-- Claim C7: the data logger writes a row in a cycle exactly when the
headline intensity differs from the previously written row, the first
cycle of a state always writing because the buffer is reset to None; on
intensities 1, 1, 2, 2, 2 it writes exactly at the first and third
cycles. -/
theorem c7_logger_writes_on_intensity_change :
    (∀ (α : Type) [_inst : DecidableEq α] (prev : Option α) (vs : List α)
       (i : Nat),
       (loggerFlags prev vs)[i]? =
         (vs[i]?).map fun v => decide (some v ≠ lastWritten prev (vs.take i))) ∧
    loggerFlags (none : Option ℤ) [1, 1, 2, 2, 2]
      = [true, false, true, false, false] :=
  ⟨fun α _inst prev vs i => loggerFlags_char prev vs i, by decide⟩

/-- Claim C8: for two range fields ranked [A, B] with strictly ascending
ranges, the generated state table is the cartesian product arranged in
blocks that hold A fixed while B sweeps through all of its values before
A changes (the source sorts the product lexicographically ascending and
then reverses it, so the blocks run in descending order). -/
theorem c8_rightmost_field_sweeps_fastest :
    ∀ (α β : Type) [_instα : LinearOrder α] [_instβ : LinearOrder β]
      (as : List α) (bs : List β),
      as.Pairwise (· < ·) → bs.Pairwise (· < ·) →
      scanStates as bs
        = as.reverse.flatMap (fun a => bs.reverse.map fun b => (a, b)) := by
  intro α β _instα _instβ as bs ha hb
  rw [scanStates,
    List.Sorted.insertionSort_eq (product_dict_pairwise ha hb),
    product_dict, reverse_flatMap]
  congr 1
  funext a
  rw [List.map_reverse]

/-- Claim C8 witness: ranges A = [1, 2] and B = [10, 20] generate the
four states grouped by A with B sweeping fully inside each group. -/
theorem c8_witness :
    scanStates ([1, 2] : List ℤ) ([10, 20] : List ℤ)
      = [(2, 20), (2, 10), (1, 20), (1, 10)] :=
  (c8_rightmost_field_sweeps_fastest ℤ ℤ [1, 2] [10, 20]
    (by decide) (by decide)).trans (by decide)

/-- Claim C9: a setpoint variable is judged in range exactly when its
window spans the minimum hold time with every sample strictly inside the
tolerance band around the setpoint, or its maximum timeout has elapsed
since the state began; and a variable unchanged from the previous state
is exempted from equilibration entirely (it is never in vars_wait, and
clearing all equilibrations only constrains the changed variables). -/
theorem c9_equilibration_in_range_criterion :
    (∀ (α : Type) [_inst : LinearOrderedCommRing α]
       (elapsed minE maxE setp tol : α) (trail : List (α × α)),
       trail ≠ [] → 0 ≤ minE →
       (in_range_var elapsed minE maxE setp tol trail = true ↔
         (maxE ≤ elapsed ∨
           (minE ≤ elapsed ∧
             ∀ x ∈ windowTrace minE trail, setp - tol < x ∧ x < setp + tol)))) ∧
    (∀ (fields : List Nat) (chg : Nat → Bool) (f : Nat),
       chg f = false → f ∉ vars_wait fields chg) ∧
    (∀ (fields : List Nat) (chg inR : Nat → Bool),
       allCleared fields chg inR = true ↔
         ∀ f ∈ fields, chg f = true → inR f = true) := by
  refine ⟨fun α _inst elapsed minE maxE setp tol trail htrail hminE =>
    in_range_var_iff elapsed minE maxE setp tol trail htrail hminE, ?_, ?_⟩
  · intro fields chg f hf hmem
    obtain ⟨-, hc⟩ := List.mem_filter.mp hmem
    rw [hf] at hc
    cases hc
  · intro fields chg inR
    rw [allCleared, vars_wait, List.all_eq_true]
    constructor
    · intro h f hf hc
      exact h f (List.mem_filter.mpr ⟨hf, hc⟩)
    · intro h x hx
      obtain ⟨hm, hc⟩ := List.mem_filter.mp hx
      exact h x hm hc

/-- Claim C9 witness: one in-window sample at the setpoint with the
minimum hold time elapsed is judged in range, and an unchanged field is
not asked to equilibrate. -/
theorem c9_witness :
    in_range_var (2 : ℤ) 1 10 25 1 [(0, 25)] = true ∧
    (5 : Nat) ∉ vars_wait [5] (fun _ => false) :=
  ⟨(c9_equilibration_in_range_criterion.1 ℤ 2 1 10 25 1 [(0, 25)]
      (by decide) (by decide)).mpr (Or.inr ⟨by decide, by decide⟩),
    c9_equilibration_in_range_criterion.2.1 [5] (fun _ => false) 5 rfl⟩

/-- Claim C10: handshake encoding is defined only on the enumerated
command set: when the framed message is a key of the checksum table,
str2shim returns the frame extended with the table checksum byte, and
for every other message it raises KeyError (modelled as none) — no frame
with a guessed or computed checksum is produced. -/
theorem c10_shim_encoding_closed_command_set :
    ∀ msg : List Nat,
      (∀ c, shim_checksum? ([2] ++ msg ++ [131]) = some c →
        str2shim msg = some (([2] ++ msg ++ [131]) ++ [c])) ∧
      (shim_checksum? ([2] ++ msg ++ [131]) = none → str2shim msg = none) := by
  intro msg
  constructor
  · intro c hc
    simp only [str2shim, hc]
    rfl
  · intro h
    simp only [str2shim, h]
    rfl

/-- Claim C10 witness: the enumerated data-request message R is framed
with its table checksum 0x51, and the unlisted message A is refused. -/
theorem c10_witness :
    str2shim [82] = some [2, 82, 131, 81] ∧ str2shim [65] = none :=
  ⟨(c10_shim_encoding_closed_command_set [82]).1 81 (by decide),
    (c10_shim_encoding_closed_command_set [65]).2 (by decide)⟩

end Spectackler
